import Mathlib

/-!
Verification of the procurement-dashboard summarization pipeline
(`src/app.py`): text/numeric normalization (`load_data`), the greedy
two-line label wrapper (`wrap_text`), and the Top-10 aggregator (`top10`).

Numbers are modelled as rationals (the Python floats carry exact decimal
values in every scenario considered here).  Strings are Lean `String`s;
Python's `str.split()` (split on whitespace runs, dropping empties) and
`str.strip()` are re-implemented below over the character list so that
every definition is executable and kernel-reducible.
-/

/-- Whitespace as Python's `str.split()` / `str.strip()` see it (the common
ASCII whitespace characters). -/
def isWsChar (c : Char) : Bool :=
  c == ' ' || c == '\t' || c == '\n' || c == '\r'

/-- Worker for `splitWs`: walks the characters, accumulating the current
word; a whitespace character closes the current word (if any). -/
def splitWsGo : List Char → List Char → List String
  | [], cur => if cur.isEmpty then [] else [String.mk cur]
  | c :: cs, cur =>
    if isWsChar c then
      if cur.isEmpty then splitWsGo cs [] else String.mk cur :: splitWsGo cs []
    else
      splitWsGo cs (cur ++ [c])

/-- Python `text.split()`: split on runs of whitespace, discarding empty
pieces (so leading/trailing whitespace vanishes). -/
def splitWs (s : String) : List String := splitWsGo s.toList []

/-- Python `" ".join(words)` (one separating space between adjacent words). -/
def wordsJoin : List String → String
  | [] => ""
  | [w] => w
  | w :: ws => w ++ " " ++ wordsJoin ws

/-- Python `sep.join(pieces)`. -/
def strJoin (sep : String) : List String → String
  | [] => ""
  | [x] => x
  | x :: xs => x ++ sep ++ strJoin sep xs

/-- The loop of `wrap_text` (src/app.py lines 125-131): for each word, if
`len(line) + len(w) <= width` extend the line (`line += (" " if line else
"") + w`), otherwise emit the line and start a new one with `w`; after the
loop the pending line is emitted. -/
def wrapAux (width : Nat) : List String → List String → String → List String
  | [], lines, line => lines ++ [line]
  | w :: ws, lines, line =>
    if line.length + w.length ≤ width then
      wrapAux width ws lines (line ++ (if line.isEmpty then "" else " ") ++ w)
    else
      wrapAux width ws (lines ++ [line]) w

/-- All lines the greedy loop of `wrap_text` produces (before the
two-line truncation `lines[:2]`). -/
def wrapLines (text : String) (width : Nat) : List String :=
  wrapAux width (splitWs text) [] ""

/-- `wrap_text(text, width=30)` (src/app.py lines 123-132): greedy word
wrap, then `"<br>".join(lines[:2])`. -/
def wrap_text (text : String) (width : Nat) : String :=
  strJoin "<br>" ((wrapLines text width).take 2)

/-- Text cleanse of `load_data` (src/app.py lines 88-90):
`astype(str).str.strip()`, then values in `["", "nan", "None"]` become
`"Unknown"`.  Python `str.strip()` is modelled over the character list. -/
def pyStrip (s : String) : String :=
  String.mk (((s.toList.dropWhile isWsChar).reverse.dropWhile isWsChar).reverse)

/-- `df.loc[df[col].isin(["", "nan", "None"]), col] = "Unknown"` applied to
the stripped cell (src/app.py lines 88-90). -/
def normText (s : String) : String :=
  let t := pyStrip s
  if t = "" ∨ t = "nan" ∨ t = "None" then "Unknown" else t

/-- Split a character list at every `'.'` (for the decimal-point handling
of `pd.to_numeric`). -/
def splitDot : List Char → List (List Char)
  | [] => [[]]
  | c :: cs =>
    match splitDot cs with
    | [] => []
    | p :: ps => if c = '.' then [] :: p :: ps else (c :: p) :: ps

/-- Value of a digit string (most significant first). -/
def digitsVal (l : List Char) : Nat :=
  l.foldl (fun acc c => 10 * acc + (c.toNat - '0'.toNat)) 0

/-- `pd.to_numeric(x, errors="coerce")` restricted to the shapes that can
reach it in `clean_numeric` (the cell has already been reduced to digits
and dots): an integer part, optionally a dot and a fractional part, at
least one of them non-empty; anything else coerces to NaN (`none`). -/
def parseNum (s : String) : Option ℚ :=
  match splitDot s.toList with
  | [a] =>
    if a ≠ [] ∧ a.all Char.isDigit then some (digitsVal a : ℚ) else none
  | [a, b] =>
    if (a ≠ [] ∨ b ≠ []) ∧ a.all Char.isDigit ∧ b.all Char.isDigit then
      some ((digitsVal a : ℚ) + (digitsVal b : ℚ) / 10 ^ b.length)
    else none
  | _ => none

/-- The string pipeline of `clean_numeric` (src/app.py lines 93-95): drop
commas and spaces, replace the whole-cell sentinels `"NA" "-" "" "nan"
"None"` by `"0"`, drop every remaining non-digit non-dot character
(`re.sub(r"[^\d.]", "", x)`). -/
def cleanse (s : String) : String :=
  let s1 := String.mk (s.toList.filter (fun c => !(c == ',' || c == ' ')))
  let s2 := if s1 = "NA" ∨ s1 = "-" ∨ s1 = "" ∨ s1 = "nan" ∨ s1 = "None" then "0" else s1
  String.mk (s2.toList.filter (fun c => c.isDigit || c == '.'))

/-- `clean_numeric` (src/app.py lines 92-96): the string pipeline above,
then `pd.to_numeric(..., errors="coerce").fillna(0)`. -/
def clean_numeric (s : String) : ℚ :=
  match parseNum (cleanse s) with
  | some q => q
  | none => 0

/-- `USD_RATE = 1454` (src/app.py line 13). -/
def USD_RATE : ℚ := 1454

/-- A raw row as `load_data` sees it after column selection and renaming
(src/app.py lines 78-86); every cell is text (`astype(str)` renders a
missing cell as `"nan"` and a Python `None` as `"None"`). -/
structure RawRow where
  Equipment : String
  Department : String
  Service : String
  Quantity : String
  Unit_Price_RWF : String
  hasContract : String
  deliveryStatus : String

/-- A normalized record: the dataframe row after `load_data` (src/app.py
lines 88-102) and the wrapped label of line 134. -/
structure Rec where
  Equipment : String
  Department : String
  Service : String
  Quantity : ℚ
  Unit_Price_RWF : ℚ
  hasContract : String
  deliveryStatus : String
  Unit_Price : ℚ
  Total_Price : ℚ
  Equipment_wrapped : String

/-- Normalization of one row: the per-column transformations of
`load_data` (text cleanse, numeric cleanse, derived USD columns) plus
`df["Equipment_wrapped"] = df["Equipment"].apply(wrap_text)`. -/
def loadRow (r : RawRow) : Rec :=
  let eq := normText r.Equipment
  let q := clean_numeric r.Quantity
  let rwf := clean_numeric r.Unit_Price_RWF
  let usd := rwf / USD_RATE
  { Equipment := eq
    Department := normText r.Department
    Service := normText r.Service
    Quantity := q
    Unit_Price_RWF := rwf
    hasContract := r.hasContract
    deliveryStatus := r.deliveryStatus
    Unit_Price := usd
    Total_Price := usd * q
    Equipment_wrapped := wrap_text eq 30 }

/-- Lexicographic `≤` on character lists by code point (Python's string
comparison, as pandas `sort_values` uses it on text columns). -/
def listLe : List Char → List Char → Bool
  | [], _ => true
  | _ :: _, [] => false
  | a :: as, b :: bs =>
    if a.toNat < b.toNat then true
    else if b.toNat < a.toNat then false
    else listLe as bs

/-- Lexicographic `<` on character lists by code point. -/
def listLt : List Char → List Char → Bool
  | [], [] => false
  | [], _ :: _ => true
  | _ :: _, [] => false
  | a :: as, b :: bs =>
    if a.toNat < b.toNat then true
    else if b.toNat < a.toNat then false
    else listLt as bs

/-- Python string `<=` (code-point lexicographic). -/
def strLe (a b : String) : Bool := listLe a.toList b.toList

/-- Python string `<` (code-point lexicographic). -/
def strLt (a b : String) : Bool := listLt a.toList b.toList

/-- A dataframe cell as the aggregator can see it: the numeric columns hold
numbers, the categorical columns hold text (pandas sums text cells by
concatenation). -/
inductive Val where
  | num (q : ℚ)
  | str (s : String)
deriving DecidableEq

/-- Pandas `+` on homogeneous cells: numeric addition, string
concatenation (the mixed cases never arise from a single column). -/
def Val.add : Val → Val → Val
  | .num a, .num b => .num (a + b)
  | .str a, .str b => .str (a ++ b)
  | x, _ => x

/-- Pandas `max` on homogeneous cells. -/
def Val.maxv : Val → Val → Val
  | .num a, .num b => .num (max a b)
  | .str a, .str b => .str (if strLe a b then b else a)
  | x, _ => x

/-- Pandas `<=` on homogeneous cells (used by `sort_values`); the mixed
cases never arise from a single column and get an arbitrary fixed order. -/
def vle : Val → Val → Bool
  | .num a, .num b => decide (a ≤ b)
  | .str a, .str b => strLe a b
  | .num _, .str _ => true
  | .str _, .num _ => false

/-- The grouping label (`"Equipment_wrapped"`). -/
def lbl (r : Rec) : String := r.Equipment_wrapped

/-- Worker for `dedupBy`: keep a row iff its label has not been seen. -/
def dedupByGo : List Rec → List String → List Rec
  | [], _ => []
  | r :: rs, seen =>
    if lbl r ∈ seen then dedupByGo rs seen
    else r :: dedupByGo rs (lbl r :: seen)

/-- `df_in.drop_duplicates("Equipment_wrapped")` (src/app.py line 168):
keep the first row bearing each label, drop every later row with a label
already seen. -/
def dedupBy (rows : List Rec) : List Rec := dedupByGo rows []

/-- The group keys as `groupby("Equipment_wrapped", as_index=False)`
produces them: the distinct labels, sorted ascending (groupby's default
`sort=True`). -/
def sortedKeys (rows : List Rec) : List String :=
  List.insertionSort (fun a b => strLe a b = true) ((rows.map lbl).dedup)

/-- Fold a group's cells with the aggregation (`sum`/`max`); a group is
never empty, so the `[]` case is unreachable. -/
def aggFold : List Val → (Val → Val → Val) → Val
  | [], _ => Val.num 0
  | v :: vs, op => vs.foldl op v

/-- `df.groupby("Equipment_wrapped", as_index=False)[col].agg` : one output
row per distinct label (keys ascending), holding the fold of that group's
cells in row order. -/
def groupAgg (rows : List Rec) (f : Rec → Val) (op : Val → Val → Val) :
    List (String × Val) :=
  (sortedKeys rows).map
    (fun k => (k, aggFold ((rows.filter (fun x => lbl x == k)).map f) op))

/-- `.sort_values(metric, ascending=False)`: sort by the aggregated value,
descending.  Pandas' default `kind='quicksort'` is documented as not
stable, so the program guarantees no particular order among equal values;
insertion sort is used here only as an executable stand-in, and nothing
below derives a tie-order guarantee from its stability — the facts proved
about it are permutation-invariant (membership, length) or concern
concrete frames of at most two tied cells, where numpy's small-array sort
performs no equal-element swap and agrees with this model. -/
def sortValsDesc (l : List (String × Val)) : List (String × Val) :=
  List.insertionSort (fun a b => vle b.2 a.2 = true) l

/-- The columns of the dataframe at the point `top10` is called
(src/app.py lines 83-86, 101-102, 134): name → cell extractor. -/
def column : String → Option (Rec → Val)
  | "Equipment" => some (fun r => .str r.Equipment)
  | "Department" => some (fun r => .str r.Department)
  | "Service" => some (fun r => .str r.Service)
  | "Quantity" => some (fun r => .num r.Quantity)
  | "Unit_Price_RWF" => some (fun r => .num r.Unit_Price_RWF)
  | "Has Contract?" => some (fun r => .str r.hasContract)
  | "Delivery Status" => some (fun r => .str r.deliveryStatus)
  | "Unit_Price" => some (fun r => .num r.Unit_Price)
  | "Total_Price" => some (fun r => .num r.Total_Price)
  | "Equipment_wrapped" => some (fun r => .str r.Equipment_wrapped)
  | _ => none

/-- `top10(df_in, metric)` (src/app.py lines 166-172).  For
`"Unit_Price"`: drop duplicate labels, group by label, `max`, sort
descending, head(10).  Otherwise: group by label, `sum` over the selected
column, sort descending, head(10); selecting a column the frame does not
have raises a `KeyError` naming it (modelled as `Except.error`). -/
def top10 (rows : List Rec) (metric : String) :
    Except String (List (String × Val)) :=
  if metric = "Unit_Price" then
    .ok ((sortValsDesc
      (groupAgg (dedupBy rows) (fun r => .num r.Unit_Price) Val.maxv)).take 10)
  else
    match column metric with
    | none => .error ("Column not found: " ++ metric)
    | some f => .ok ((sortValsDesc (groupAgg rows f Val.add)).take 10)

deriving instance DecidableEq for Except

/-- First record of the spec's 8 scenario: `{equip:"Pump A",
service:"Water", qty:"10", price:"1,454"}`. -/
def scenRaw1 : RawRow :=
  ⟨"Pump A", "Operations", "Water", "10", "1,454", "Yes", "Delivered"⟩

/-- Second record of the spec's 8 scenario: `{equip:"Pump A",
service:"Water", qty:"5", price:"2,908"}`. -/
def scenRaw2 : RawRow :=
  ⟨"Pump A", "Operations", "Water", "5", "2,908", "Yes", "Delivered"⟩

/-- What `load_data` makes of `scenRaw1` at rate 1454 (unit price 1.0,
total price 10.0). -/
def scenRec1 : Rec :=
  ⟨"Pump A", "Operations", "Water", 10, 1454, "Yes", "Delivered", 1, 10, "Pump A"⟩

/-- What `load_data` makes of `scenRaw2` at rate 1454 (unit price 2.0,
total price 10.0). -/
def scenRec2 : Rec :=
  ⟨"Pump A", "Operations", "Water", 5, 2908, "Yes", "Delivered", 2, 10, "Pump A"⟩

/-- The scenario's normalized record set. -/
def scenRows : List Rec := [loadRow scenRaw1, loadRow scenRaw2]

/-- A record labelled `"B"` with quantity 5 (first encountered). -/
def recB : Rec := ⟨"B", "D", "S", 5, 100, "Yes", "OK", 3, 15, "B"⟩

/-- A record labelled `"A"` with quantity 5 (encountered second). -/
def recA : Rec := ⟨"A", "D", "S", 5, 200, "Yes", "OK", 4, 20, "A"⟩

/-- Two groups, equal aggregated quantity, label `"B"` first in the input. -/
def rowsTie : List Rec := [recB, recA]

/-- A single record with service `"Water"`. -/
def recPump : Rec := ⟨"Pump", "D", "Water", 10, 100, "Yes", "OK", 2, 20, "Pump"⟩

/-! ### Basic facts about the code-point order -/

theorem charEqOfToNat (a b : Char) (h : a.toNat = b.toNat) : a = b := by
  cases a; cases b
  simp only [Char.toNat] at h
  congr 1
  exact UInt32.toNat.inj h

theorem listLe_refl (l : List Char) : listLe l l = true := by
  induction l with
  | nil => rfl
  | cons a as ih => simp [listLe, ih]

theorem listLe_total (a : List Char) : ∀ b, listLe a b = true ∨ listLe b a = true := by
  induction a with
  | nil => intro b; left; rfl
  | cons x xs ih =>
    intro b
    cases b with
    | nil => right; rfl
    | cons y ys =>
      by_cases h1 : x.toNat < y.toNat
      · left; simp [listLe, h1]
      · by_cases h2 : y.toNat < x.toNat
        · right; simp [listLe, h2]
        · rcases ih ys with h | h
          · left; simp [listLe, h1, h2, h]
          · right; simp [listLe, h1, h2, h]

theorem listLe_trans (a : List Char) :
    ∀ b c, listLe a b = true → listLe b c = true → listLe a c = true := by
  induction a with
  | nil => intro b c _ _; rfl
  | cons x xs ih =>
    intro b c hab hbc
    cases b with
    | nil => simp [listLe] at hab
    | cons y ys =>
      cases c with
      | nil => simp [listLe] at hbc
      | cons z zs =>
        simp only [listLe] at hab hbc ⊢
        split_ifs at hab hbc ⊢ with h1 h2 h3 h4 h5 h6 <;>
          first
          | rfl
          | omega
          | (exact ih ys zs hab hbc)
          | (simp_all)

theorem listLe_antisymm (a : List Char) :
    ∀ b, listLe a b = true → listLe b a = true → a = b := by
  induction a with
  | nil =>
    intro b _ hba
    cases b with
    | nil => rfl
    | cons y ys => simp [listLe] at hba
  | cons x xs ih =>
    intro b hab hba
    cases b with
    | nil => simp [listLe] at hab
    | cons y ys =>
      simp only [listLe] at hab hba
      by_cases h1 : x.toNat < y.toNat
      · rw [if_neg (by omega), if_pos h1] at hba
        exact absurd hba (by simp)
      · by_cases h2 : y.toNat < x.toNat
        · rw [if_neg h1, if_pos h2] at hab
          exact absurd hab (by simp)
        · rw [if_neg h1, if_neg h2] at hab
          rw [if_neg h2, if_neg h1] at hba
          have hx : x = y := charEqOfToNat x y (by omega)
          subst hx
          rw [ih ys hab hba]

theorem listLt_of_le_of_ne (a : List Char) :
    ∀ b, listLe a b = true → a ≠ b → listLt a b = true := by
  induction a with
  | nil =>
    intro b _ hne
    cases b with
    | nil => exact absurd rfl hne
    | cons y ys => rfl
  | cons x xs ih =>
    intro b hab hne
    cases b with
    | nil => simp [listLe] at hab
    | cons y ys =>
      simp only [listLe] at hab
      simp only [listLt]
      by_cases h1 : x.toNat < y.toNat
      · rw [if_pos h1]
      · by_cases h2 : y.toNat < x.toNat
        · rw [if_neg h1, if_pos h2] at hab
          exact absurd hab (by simp)
        · rw [if_neg h1, if_neg h2] at hab
          rw [if_neg h1, if_neg h2]
          have hx : x = y := charEqOfToNat x y (by omega)
          subst hx
          exact ih ys hab (fun hc => hne (by rw [hc]))

theorem strEqOfToList (a b : String) (h : a.toList = b.toList) : a = b := by
  cases a; cases b
  exact congrArg String.mk h

theorem strLe_refl (a : String) : strLe a a = true := listLe_refl _

theorem strLe_total (a b : String) : strLe a b = true ∨ strLe b a = true :=
  listLe_total _ _

theorem strLe_trans (a b c : String) (h1 : strLe a b = true) (h2 : strLe b c = true) :
    strLe a c = true := listLe_trans _ _ _ h1 h2

theorem strLt_of_le_of_ne (a b : String) (h1 : strLe a b = true) (h2 : a ≠ b) :
    strLt a b = true :=
  listLt_of_le_of_ne _ _ h1 (fun hc => h2 (strEqOfToList a b hc))

/-! ### Facts about `splitWs`, `wordsJoin` and `wrapAux` -/

theorem str_length_pos_of_ne (s : String) (h : s ≠ "") : 0 < s.length := by
  cases s with
  | mk data =>
    cases data with
    | nil => exact absurd rfl h
    | cons c cs => exact Nat.succ_pos _

theorem isEmpty_false_of_pos (s : String) (h : 0 < s.length) : s.isEmpty = false := by
  rw [Bool.eq_false_iff]
  intro he
  rw [(String.isEmpty_iff s).mp he] at h
  simp [String.length] at h

theorem splitWsGo_pos (cs : List Char) :
    ∀ cur w, w ∈ splitWsGo cs cur → 0 < w.length := by
  induction cs with
  | nil =>
    intro cur w hw
    simp only [splitWsGo] at hw
    by_cases hc : cur.isEmpty
    · simp [hc] at hw
    · rw [if_neg hc, List.mem_singleton] at hw
      subst hw
      cases cur with
      | nil => simp at hc
      | cons c cs2 => exact Nat.succ_pos _
  | cons c cs ih =>
    intro cur w hw
    simp only [splitWsGo] at hw
    by_cases h1 : isWsChar c
    · rw [if_pos h1] at hw
      by_cases h2 : cur.isEmpty
      · rw [if_pos h2] at hw
        exact ih [] w hw
      · rw [if_neg h2] at hw
        rcases List.mem_cons.mp hw with hw | hw
        · subst hw
          cases cur with
          | nil => simp at h2
          | cons d ds => exact Nat.succ_pos _
        · exact ih [] w hw
    · rw [if_neg h1] at hw
      exact ih _ w hw

theorem splitWs_pos (s : String) (w : String) (hw : w ∈ splitWs s) : 0 < w.length :=
  splitWsGo_pos _ _ _ hw

theorem splitWsGo_nows (cs : List Char) :
    ∀ cur, (∀ c ∈ cur, isWsChar c = false) →
    ∀ w ∈ splitWsGo cs cur, w.toList.all (fun c => !isWsChar c) = true := by
  induction cs with
  | nil =>
    intro cur hcur w hw
    simp only [splitWsGo] at hw
    by_cases hc : cur.isEmpty
    · simp [hc] at hw
    · rw [if_neg hc, List.mem_singleton] at hw
      subst hw
      simp only [List.all_eq_true]
      intro c hcmem
      simp [hcur c hcmem]
  | cons c cs ih =>
    intro cur hcur w hw
    simp only [splitWsGo] at hw
    by_cases h1 : isWsChar c
    · rw [if_pos h1] at hw
      by_cases h2 : cur.isEmpty
      · rw [if_pos h2] at hw
        exact ih [] (by simp) w hw
      · rw [if_neg h2] at hw
        rcases List.mem_cons.mp hw with hw | hw
        · subst hw
          simp only [List.all_eq_true]
          intro d hdmem
          simp [hcur d hdmem]
        · exact ih [] (by simp) w hw
    · rw [if_neg h1] at hw
      refine ih (cur ++ [c]) ?_ w hw
      intro d hd
      rcases List.mem_append.mp hd with hd | hd
      · exact hcur d hd
      · rw [List.mem_singleton] at hd
        subst hd
        exact Bool.eq_false_iff.mpr h1

theorem splitWs_nows (s : String) (w : String) (hw : w ∈ splitWs s) :
    w.toList.all (fun c => !isWsChar c) = true :=
  splitWsGo_nows _ _ (by simp) w hw

theorem wordsJoin_cons_cons (a b : String) (l : List String) :
    wordsJoin (a :: b :: l) = a ++ " " ++ wordsJoin (b :: l) := rfl

theorem head_le_wordsJoin (w : String) (l : List String) :
    w.length ≤ (wordsJoin (w :: l)).length := by
  cases l with
  | nil => exact le_refl _
  | cons b bs =>
    rw [wordsJoin_cons_cons, String.length_append, String.length_append]
    omega

theorem wordsJoin_pos (w : String) (l : List String) (h : 0 < w.length) :
    0 < (wordsJoin (w :: l)).length :=
  lt_of_lt_of_le h (head_le_wordsJoin w l)

theorem wordsJoin_snoc (l : List String) (w : String) (h : l ≠ []) :
    wordsJoin (l ++ [w]) = wordsJoin l ++ " " ++ w := by
  induction l with
  | nil => exact absurd rfl h
  | cons a as ih =>
    cases as with
    | nil => rfl
    | cons b bs =>
      show a ++ " " ++ wordsJoin ((b :: bs) ++ [w]) =
        (a ++ " " ++ wordsJoin (b :: bs)) ++ " " ++ w
      rw [ih (by simp)]
      simp only [String.append_assoc]

theorem wordsJoin_glue (a b : String) (l : List String) :
    wordsJoin ((a ++ " " ++ b) :: l) = a ++ " " ++ wordsJoin (b :: l) := by
  cases l with
  | nil => rfl
  | cons c cs => simp only [wordsJoin_cons_cons, String.append_assoc]

theorem wrapAux_fits (width : Nat) (ws : List String) :
    ∀ lines line, 0 < line.length → (∀ w ∈ ws, 0 < w.length) →
    (wordsJoin (line :: ws)).length ≤ width →
    wrapAux width ws lines line = lines ++ [wordsJoin (line :: ws)] := by
  induction ws with
  | nil => intro lines line _ _ _; rfl
  | cons w ws ih =>
    intro lines line hline hws hlen
    have hjoin : wordsJoin (line :: w :: ws) = line ++ " " ++ wordsJoin (w :: ws) := rfl
    have hlen2 : line.length + 1 + (wordsJoin (w :: ws)).length ≤ width := by
      rw [hjoin, String.length_append, String.length_append] at hlen
      simpa using hlen
    have hcond : line.length + w.length ≤ width := by
      have := head_le_wordsJoin w ws
      omega
    have hemp : line.isEmpty = false := isEmpty_false_of_pos _ hline
    have hrw : (line ++ (if line.isEmpty then "" else " ") ++ w) = line ++ " " ++ w := by
      rw [hemp]
      rfl
    have hglue : wordsJoin ((line ++ " " ++ w) :: ws) = wordsJoin (line :: w :: ws) := by
      rw [wordsJoin_glue]
      rfl
    simp only [wrapAux, if_pos hcond, hrw]
    rw [ih lines (line ++ " " ++ w)
      (by rw [String.length_append, String.length_append]; omega)
      (fun x hx => hws x (List.mem_cons_of_mem _ hx))
      (by rw [hglue]; exact hlen),
      hglue]

theorem wrapAux_bound (width : Nat) (orig : List String) (ws : List String) :
    ∀ lines line, (∀ x ∈ ws, x ∈ orig) →
    (line.length ≤ width + 1 ∨ line ∈ orig) →
    (∀ l ∈ lines, l.length ≤ width + 1 ∨ l ∈ orig) →
    ∀ l ∈ wrapAux width ws lines line, l.length ≤ width + 1 ∨ l ∈ orig := by
  induction ws with
  | nil =>
    intro lines line _ hline hlines l hl
    simp only [wrapAux] at hl
    rcases List.mem_append.mp hl with h | h
    · exact hlines l h
    · rw [List.mem_singleton] at h
      subst h
      exact hline
  | cons w ws ih =>
    intro lines line hsub hline hlines l hl
    simp only [wrapAux] at hl
    by_cases hcond : line.length + w.length ≤ width
    · rw [if_pos hcond] at hl
      refine ih lines _ (fun x hx => hsub x (List.mem_cons_of_mem _ hx)) ?_ hlines l hl
      left
      rw [String.length_append, String.length_append]
      by_cases he : line.isEmpty = true
      · rw [if_pos he]
        have h0 : ("" : String).length = 0 := rfl
        omega
      · rw [if_neg he]
        have h1 : (" " : String).length = 1 := rfl
        omega
    · rw [if_neg hcond] at hl
      refine ih (lines ++ [line]) w (fun x hx => hsub x (List.mem_cons_of_mem _ hx))
        (Or.inr (hsub w (List.mem_cons_self _ _))) ?_ l hl
      intro l2 hl2
      rcases List.mem_append.mp hl2 with h | h
      · exact hlines l2 h
      · rw [List.mem_singleton] at h
        subst h
        exact hline

theorem wrapAux_words (width : Nat) (orig : List String)
    (hor : ∀ x ∈ orig, 0 < x.length) :
    ∀ (ws : List String) (lines : List String) (line : String) (pre : List String),
    List.Sublist (pre ++ ws) orig →
    line = wordsJoin pre →
    (∀ l ∈ lines, ∃ seg, List.Sublist seg orig ∧ l = wordsJoin seg) →
    ∀ l ∈ wrapAux width ws lines line, ∃ seg, List.Sublist seg orig ∧ l = wordsJoin seg := by
  intro ws
  induction ws with
  | nil =>
    intro lines line pre hsub hline hlines l hl
    simp only [wrapAux] at hl
    rcases List.mem_append.mp hl with h | h
    · exact hlines l h
    · rw [List.mem_singleton] at h
      subst h
      exact ⟨pre, by simpa using hsub, hline⟩
  | cons w ws ih =>
    intro lines line pre hsub hline hlines l hl
    simp only [wrapAux] at hl
    by_cases hcond : line.length + w.length ≤ width
    · rw [if_pos hcond] at hl
      cases pre with
      | nil =>
        have hline0 : line = "" := hline
        subst hline0
        have hrw : (("" : String) ++ (if ("" : String).isEmpty then "" else " ") ++ w) = w := rfl
        rw [hrw] at hl
        exact ih lines w [w] (by simpa using hsub) rfl hlines l hl
      | cons p ps =>
        have hpos : 0 < line.length := by
          rw [hline]
          exact wordsJoin_pos p ps (hor p (hsub.subset (by simp)))
        have hemp : line.isEmpty = false := isEmpty_false_of_pos _ hpos
        have hrw : (line ++ (if line.isEmpty then "" else " ") ++ w) = line ++ " " ++ w := by
          rw [hemp]
          rfl
        rw [hrw] at hl
        refine ih lines (line ++ " " ++ w) ((p :: ps) ++ [w]) (by simpa using hsub) ?_ hlines l hl
        rw [wordsJoin_snoc _ _ (by simp), hline]
    · rw [if_neg hcond] at hl
      refine ih (lines ++ [line]) w [w] ?_ rfl ?_ l hl
      · exact List.Sublist.trans (by simpa using List.sublist_append_right pre (w :: ws)) hsub
      · intro l2 hl2
        rcases List.mem_append.mp hl2 with h | h
        · exact hlines l2 h
        · rw [List.mem_singleton] at h
          subst h
          exact ⟨pre, List.Sublist.trans (List.sublist_append_left pre (w :: ws)) hsub, hline⟩

/-- Every line the greedy loop produces is the single-space join of a
subsequence of the input's words. -/
theorem wrapLines_words (text : String) (width : Nat) :
    ∀ l ∈ wrapLines text width,
    ∃ seg, List.Sublist seg (splitWs text) ∧ l = wordsJoin seg :=
  wrapAux_words width (splitWs text) (fun x hx => splitWs_pos text x hx)
    (splitWs text) [] "" []
    (by simpa using List.Sublist.refl (splitWs text)) rfl
    (fun l hl => absurd hl (List.not_mem_nil l))

/-! ### Facts about `vle` and the sorts -/

theorem vle_refl (v : Val) : vle v v = true := by
  cases v with
  | num q => simp [vle]
  | str s => exact listLe_refl _

theorem vle_total (u v : Val) : vle u v = true ∨ vle v u = true := by
  cases u <;> cases v <;> simp only [vle, decide_eq_true_eq]
  · exact le_total _ _
  · left; trivial
  · right; trivial
  · exact strLe_total _ _

theorem vle_trans (u v w : Val) (h1 : vle u v = true) (h2 : vle v w = true) :
    vle u w = true := by
  cases u <;> cases v <;> cases w <;>
    simp only [vle, decide_eq_true_eq, Bool.false_eq_true] at h1 h2 ⊢ <;>
    first
    | exact le_trans h1 h2
    | exact strLe_trans _ _ _ h1 h2
    | trivial

theorem orderedInsert_pairwise_of {α : Type} (r : α → α → Prop) [DecidableRel r]
    (htot : ∀ a b, r a b ∨ r b a) (htr : ∀ a b c, r a b → r b c → r a c) (a : α) :
    ∀ l : List α, l.Pairwise r → (List.orderedInsert r a l).Pairwise r := by
  intro l
  induction l with
  | nil => intro _; simp
  | cons b bl ih =>
    intro hpw
    have hb := List.pairwise_cons.mp hpw
    simp only [List.orderedInsert]
    by_cases hr : r a b
    · rw [if_pos hr]
      refine List.pairwise_cons.mpr ⟨?_, hpw⟩
      intro x hx
      rcases List.mem_cons.mp hx with hx | hx
      · exact hx ▸ hr
      · exact htr a b x hr (hb.1 x hx)
    · rw [if_neg hr]
      refine List.pairwise_cons.mpr ⟨?_, ih hb.2⟩
      intro x hx
      rcases (List.mem_orderedInsert r).mp hx with hx | hx
      · exact hx ▸ (htot a b).resolve_left hr
      · exact hb.1 x hx

theorem insertionSort_pairwise_of {α : Type} (r : α → α → Prop) [DecidableRel r]
    (htot : ∀ a b, r a b ∨ r b a) (htr : ∀ a b c, r a b → r b c → r a c) :
    ∀ l : List α, (List.insertionSort r l).Pairwise r := by
  intro l
  induction l with
  | nil => simp
  | cons a al ih =>
    simp only [List.insertionSort]
    exact orderedInsert_pairwise_of r htot htr a _ ih

theorem sortedKeys_sorted (rows : List Rec) :
    (sortedKeys rows).Pairwise (fun a b => strLe a b = true) :=
  insertionSort_pairwise_of _ strLe_total strLe_trans _

theorem sortedKeys_nodup (rows : List Rec) : (sortedKeys rows).Nodup :=
  ((List.perm_insertionSort _ _).nodup_iff).mpr (List.nodup_dedup _)

theorem sortedKeys_lt (rows : List Rec) :
    (sortedKeys rows).Pairwise (fun a b => strLt a b = true) :=
  ((sortedKeys_sorted rows).and (sortedKeys_nodup rows)).imp
    (fun h => strLt_of_le_of_ne _ _ h.1 h.2)

theorem groupAgg_keys_lt (rows : List Rec) (f : Rec → Val) (op : Val → Val → Val) :
    (groupAgg rows f op).Pairwise (fun a b => strLt a.1 b.1 = true) := by
  unfold groupAgg
  rw [List.pairwise_map]
  exact sortedKeys_lt rows

/-! ### Facts about `dedupBy` and `groupAgg` -/

theorem dedupByGo_subset : ∀ (rs : List Rec) (seen : List String),
    ∀ r ∈ dedupByGo rs seen, r ∈ rs := by
  intro rs
  induction rs with
  | nil => intro seen r hr; simp [dedupByGo] at hr
  | cons x rs ih =>
    intro seen r hr
    simp only [dedupByGo] at hr
    by_cases hin : lbl x ∈ seen
    · rw [if_pos hin] at hr
      exact List.mem_cons_of_mem _ (ih seen r hr)
    · rw [if_neg hin] at hr
      rcases List.mem_cons.mp hr with h | h
      · exact h ▸ List.mem_cons_self _ _
      · exact List.mem_cons_of_mem _ (ih _ r h)

theorem dedupBy_subset (rows : List Rec) : ∀ r ∈ dedupBy rows, r ∈ rows :=
  dedupByGo_subset rows []

theorem dedupByGo_lbl_not_seen : ∀ (rs : List Rec) (seen : List String),
    ∀ k ∈ (dedupByGo rs seen).map lbl, k ∉ seen := by
  intro rs
  induction rs with
  | nil => intro seen k hk; simp [dedupByGo] at hk
  | cons x rs ih =>
    intro seen k hk
    simp only [dedupByGo] at hk
    by_cases hin : lbl x ∈ seen
    · rw [if_pos hin] at hk
      exact ih seen k hk
    · rw [if_neg hin, List.map_cons] at hk
      rcases List.mem_cons.mp hk with h | h
      · exact h ▸ hin
      · intro hc
        exact ih _ k h (List.mem_cons_of_mem _ hc)

theorem mem_lbl_dedupByGo : ∀ (rs : List Rec) (seen : List String) (k : String),
    k ∈ rs.map lbl → k ∉ seen → k ∈ (dedupByGo rs seen).map lbl := by
  intro rs
  induction rs with
  | nil => intro seen k hk _; simp at hk
  | cons x rs ih =>
    intro seen k hk hns
    rw [List.map_cons] at hk
    simp only [dedupByGo]
    by_cases hin : lbl x ∈ seen
    · rw [if_pos hin]
      rcases List.mem_cons.mp hk with h | h
      · exact absurd (h ▸ hin) hns
      · exact ih seen k h hns
    · rw [if_neg hin, List.map_cons]
      by_cases hkx : k = lbl x
      · exact hkx ▸ List.mem_cons_self _ _
      · rcases List.mem_cons.mp hk with h | h
        · exact absurd h hkx
        · refine List.mem_cons_of_mem _ (ih _ k h ?_)
          intro hc
          rcases List.mem_cons.mp hc with h2 | h2
          · exact hkx h2
          · exact hns h2

theorem mem_lbl_dedupBy (rows : List Rec) (k : String) (h : k ∈ rows.map lbl) :
    k ∈ (dedupBy rows).map lbl :=
  mem_lbl_dedupByGo rows [] k h (List.not_mem_nil k)

theorem nodup_lbl_dedupByGo : ∀ (rs : List Rec) (seen : List String),
    ((dedupByGo rs seen).map lbl).Nodup := by
  intro rs
  induction rs with
  | nil => intro seen; simp [dedupByGo]
  | cons x rs ih =>
    intro seen
    simp only [dedupByGo]
    by_cases hin : lbl x ∈ seen
    · rw [if_pos hin]
      exact ih seen
    · rw [if_neg hin, List.map_cons]
      refine List.nodup_cons.mpr ⟨?_, ih _⟩
      intro hc
      exact dedupByGo_lbl_not_seen rs _ (lbl x) hc (List.mem_cons_self _ _)

theorem nodup_lbl_dedupBy (rows : List Rec) : ((dedupBy rows).map lbl).Nodup :=
  nodup_lbl_dedupByGo rows []

theorem dedupByGo_group : ∀ (rs : List Rec) (seen : List String) (k : String),
    k ∉ seen → k ∈ (dedupByGo rs seen).map lbl →
    ∃ r0, rs.find? (fun x => lbl x == k) = some r0 ∧
      (dedupByGo rs seen).filter (fun x => lbl x == k) = [r0] := by
  intro rs
  induction rs with
  | nil => intro seen k _ hk; simp [dedupByGo] at hk
  | cons x rs ih =>
    intro seen k hns hk
    simp only [dedupByGo] at hk ⊢
    by_cases hin : lbl x ∈ seen
    · rw [if_pos hin] at hk ⊢
      have hkx : lbl x ≠ k := fun hc => hns (hc ▸ hin)
      obtain ⟨r0, hfind, hfilter⟩ := ih seen k hns hk
      exact ⟨r0, by rw [List.find?_cons_of_neg _ (by simp [hkx])]; exact hfind, hfilter⟩
    · rw [if_neg hin] at hk ⊢
      by_cases hkx : k = lbl x
      · refine ⟨x, ?_, ?_⟩
        · rw [List.find?_cons_of_pos _ (by simp [hkx])]
        · rw [List.filter_cons, if_pos (by simp [hkx])]
          have hnil : (dedupByGo rs (lbl x :: seen)).filter (fun y => lbl y == k) = [] := by
            rw [List.filter_eq_nil_iff]
            intro y hy
            have hnot := dedupByGo_lbl_not_seen rs (lbl x :: seen) (lbl y)
              (List.mem_map.mpr ⟨y, hy, rfl⟩)
            simp only [Bool.not_eq_true, beq_eq_false_iff_ne]
            intro hc
            exact hnot (by rw [hc, hkx]; exact List.mem_cons_self _ _)
          rw [hnil]
      · rw [List.map_cons] at hk
        have hk2 : k ∈ (dedupByGo rs (lbl x :: seen)).map lbl := by
          rcases List.mem_cons.mp hk with h | h
          · exact absurd h hkx
          · exact h
        have hns2 : k ∉ lbl x :: seen := by
          intro hc
          rcases List.mem_cons.mp hc with h | h
          · exact hkx h
          · exact hns h
        obtain ⟨r0, hfind, hfilter⟩ := ih _ k hns2 hk2
        refine ⟨r0, ?_, ?_⟩
        · rw [List.find?_cons_of_neg _ (by simp; exact fun h => hkx h.symm)]
          exact hfind
        · rw [List.filter_cons, if_neg (by simp; exact fun h => hkx h.symm)]
          exact hfilter

theorem dedupBy_group (rows : List Rec) (k : String)
    (hk : k ∈ (dedupBy rows).map lbl) :
    ∃ r0, rows.find? (fun x => lbl x == k) = some r0 ∧
      (dedupBy rows).filter (fun x => lbl x == k) = [r0] :=
  dedupByGo_group rows [] k (List.not_mem_nil k) hk

theorem mem_sortedKeys (rows : List Rec) (k : String) :
    k ∈ sortedKeys rows ↔ k ∈ rows.map lbl := by
  unfold sortedKeys
  rw [(List.perm_insertionSort _ _).mem_iff, List.mem_dedup]

theorem groupAgg_length (rows : List Rec) (f : Rec → Val) (op : Val → Val → Val) :
    (groupAgg rows f op).length = ((rows.map lbl).dedup).length := by
  unfold groupAgg sortedKeys
  rw [List.length_map, (List.perm_insertionSort _ _).length_eq]

theorem dedupBy_labels_perm (rows : List Rec) :
    List.Perm ((dedupBy rows).map lbl) ((rows.map lbl).dedup) := by
  apply (List.perm_ext_iff_of_nodup (nodup_lbl_dedupBy rows) (List.nodup_dedup _)).mpr
  intro a
  rw [List.mem_dedup]
  constructor
  · intro h
    obtain ⟨x, hx, hxl⟩ := List.mem_map.mp h
    exact List.mem_map.mpr ⟨x, dedupBy_subset rows x hx, hxl⟩
  · exact mem_lbl_dedupBy rows a

theorem sortValsDesc_length (l : List (String × Val)) :
    (sortValsDesc l).length = l.length :=
  (List.perm_insertionSort _ l).length_eq

/-! ### Facts about the numeric and text cleanses -/

theorem parseNum_nonneg (s : String) (q : ℚ) (h : parseNum s = some q) : 0 ≤ q := by
  unfold parseNum at h
  split at h
  · split_ifs at h with hc
    rw [Option.some.injEq] at h
    rw [← h]
    positivity
  · split_ifs at h with hc
    rw [Option.some.injEq] at h
    rw [← h]
    positivity
  · simp at h

theorem clean_numeric_nonneg (s : String) : 0 ≤ clean_numeric s := by
  unfold clean_numeric
  split
  next q hq => exact parseNum_nonneg _ q hq
  next hq => exact le_refl 0

theorem normText_pos (s : String) : 0 < (normText s).length := by
  simp only [normText]
  by_cases h : pyStrip s = "" ∨ pyStrip s = "nan" ∨ pyStrip s = "None"
  · rw [if_pos h]
    decide
  · rw [if_neg h]
    push_neg at h
    exact str_length_pos_of_ne _ h.1

/-! ### Concrete evaluations of the scenario record sets -/

theorem scen_loadRow1 : loadRow scenRaw1 = scenRec1 := by
  have hp : clean_numeric "1,454" = 1454 := by decide
  have hq : clean_numeric "10" = 10 := by decide
  simp only [loadRow, scenRaw1, scenRec1, hp, hq]
  rw [Rec.mk.injEq]
  refine ⟨by decide, by decide, by decide, rfl, rfl, rfl, rfl, ?_, ?_, by decide⟩
  · unfold USD_RATE
    norm_num
  · unfold USD_RATE
    norm_num

theorem scen_loadRow2 : loadRow scenRaw2 = scenRec2 := by
  have hp : clean_numeric "2,908" = 2908 := by decide
  have hq : clean_numeric "5" = 5 := by decide
  simp only [loadRow, scenRaw2, scenRec2, hp, hq]
  rw [Rec.mk.injEq]
  refine ⟨by decide, by decide, by decide, rfl, rfl, rfl, rfl, ?_, ?_, by decide⟩
  · unfold USD_RATE
    norm_num
  · unfold USD_RATE
    norm_num

theorem scen_top10_eval : top10 scenRows "Unit_Price" = .ok [("Pump A", Val.num 1)] := by
  show top10 [loadRow scenRaw1, loadRow scenRaw2] "Unit_Price" = _
  rw [scen_loadRow1, scen_loadRow2]
  decide

theorem tie_top10_eval :
    top10 rowsTie "Quantity" = .ok [("A", Val.num 5), ("B", Val.num 5)] := by
  decide

theorem service_top10_eval :
    top10 [recPump] "Service" = .ok [("Pump", Val.str "Water")] := by
  decide

/-! ### Claim theorems for the Top-10 aggregator -/

/-- C1 (counterexample): on the spec's own scenario (two `"Pump A"`
records with unit prices 1.0 and 2.0), `top10` on the unit-price metric
returns 1.0 — the price of the first-encountered record — not the maximum
2.0 the claim asserts: `drop_duplicates("Equipment_wrapped")` keeps only
the first row per label, so the subsequent `max` sees a single record. -/
theorem top10_unit_price_not_max :
    top10 scenRows "Unit_Price" = .ok [("Pump A", Val.num 1)] ∧
    (loadRow scenRaw2).Unit_Price = 2 ∧ (1 : ℚ) < 2 :=
  ⟨scen_top10_eval, by rw [scen_loadRow2]; rfl, by norm_num⟩

/-- C1 (amended): for the unit-price metric every value in the result is
the unit price of the *first-encountered* record bearing that label (the
label-keyed deduplication keeps only the first row per label, so the
per-group maximum is over that single representative). -/
theorem top10_unit_price_first_encountered (rows : List Rec)
    (out : List (String × Val)) (l : String) (v : Val)
    (hout : top10 rows "Unit_Price" = .ok out) (hmem : (l, v) ∈ out) :
    ∃ r, rows.find? (fun x => lbl x == l) = some r ∧ v = Val.num r.Unit_Price := by
  unfold top10 at hout
  rw [if_pos rfl, Except.ok.injEq] at hout
  subst hout
  have hmem2 : (l, v) ∈
      sortValsDesc (groupAgg (dedupBy rows) (fun r => .num r.Unit_Price) Val.maxv) :=
    List.take_subset 10 _ hmem
  have hmem3 : (l, v) ∈ groupAgg (dedupBy rows) (fun r => .num r.Unit_Price) Val.maxv :=
    (List.perm_insertionSort _ _).subset hmem2
  unfold groupAgg at hmem3
  obtain ⟨k, hk, heq⟩ := List.mem_map.mp hmem3
  rw [Prod.mk.injEq] at heq
  obtain ⟨hkl, hv⟩ := heq
  have hk2 : k ∈ (dedupBy rows).map lbl := (mem_sortedKeys _ _).mp hk
  obtain ⟨r0, hfind, hfilter⟩ := dedupBy_group rows k hk2
  refine ⟨r0, ?_, ?_⟩
  · rw [← hkl]
    exact hfind
  · rw [← hv, hfilter]
    rfl

/-- C1 witness: the amended claim instantiated on the scenario rows. -/
theorem top10_unit_price_first_encountered_witness :
    ∃ r, scenRows.find? (fun x => lbl x == "Pump A") = some r ∧
      Val.num 1 = Val.num r.Unit_Price :=
  top10_unit_price_first_encountered scenRows [("Pump A", Val.num 1)]
    "Pump A" (Val.num 1) scen_top10_eval (by decide)

/-- C2 (counterexample): groups `"B"` (first encountered) and `"A"` have
equal aggregated quantity, yet the result lists `"A"` first: `groupby`
sorts the groups by label before the value sort, and on this two-cell
frame the value sort performs no equal-element swap, so the tied pair
comes out in ascending label order, not first-encountered order. -/
theorem top10_tie_not_first_encountered :
    rowsTie.map lbl = ["B", "A"] ∧ strLt "A" "B" = true ∧
    top10 rowsTie "Quantity" = .ok [("A", Val.num 5), ("B", Val.num 5)] :=
  ⟨by decide, by decide, tie_top10_eval⟩

/-- C2 (amended): no first-encountered tie rule exists, because the
first-encountered order of groups is already gone when the value sort
runs: `groupby(sort=True)` hands the groups to `sort_values` in strictly
ascending (code-point) label order for every input, and the value sort
(pandas' default quicksort, documented as not stable) adds no tie
guarantee of its own.  On the two-group tied frame — where the sort
provably performs no equal-element swap — the output is in ascending
label order, with the first-encountered group `"B"` second. -/
theorem top10_ties_enter_sort_in_label_order :
    (∀ (rows : List Rec) (f : Rec → Val) (op : Val → Val → Val),
      (groupAgg rows f op).Pairwise (fun a b => strLt a.1 b.1 = true)) ∧
    (rowsTie.map lbl = ["B", "A"] ∧
      top10 rowsTie "Quantity" = .ok [("A", Val.num 5), ("B", Val.num 5)]) :=
  ⟨groupAgg_keys_lt, by decide, tie_top10_eval⟩

/-- C4 (counterexample): `"Service"` is not a recognized metric, yet
`top10` does not fail: the `else` branch groups and sums the text column
(pandas concatenates strings under `sum`), silently producing a result. -/
theorem top10_string_metric_silently_aggregates :
    top10 [recPump] "Service" = .ok [("Pump", Val.str "Water")] ∧
    "Service" ≠ "Unit_Price" ∧ "Service" ≠ "Quantity" ∧ "Service" ≠ "Total_Price" :=
  ⟨service_top10_eval, by decide, by decide, by decide⟩

/-- C4 (amended): only a metric naming no column of the frame fails, with
a `KeyError`-kind lookup error naming the metric; a metric naming an
existing non-numeric column is silently aggregated instead. -/
theorem top10_missing_column_error (rows : List Rec) (metric : String)
    (h : column metric = none) :
    top10 rows metric = .error ("Column not found: " ++ metric) := by
  have hm : metric ≠ "Unit_Price" := by
    intro he
    subst he
    simp [column] at h
  unfold top10
  rw [if_neg hm, h]

/-- C4 witness: the spec's own metric spelling `"unit price"` is not a
column, so the lookup fails naming it. -/
theorem top10_missing_column_error_witness :
    top10 [] "unit price" = .error ("Column not found: " ++ "unit price") :=
  top10_missing_column_error [] "unit price" rfl

/-- C8: the Top-10 result never has more than 10 entries, and (zeros
included, as the code does) has exactly `min 10 d` entries where `d` is
the number of distinct wrapped labels in the input. -/
theorem top10_size_bound (rows : List Rec) (metric : String)
    (out : List (String × Val)) (hout : top10 rows metric = .ok out) :
    out.length ≤ 10 ∧ out.length = min 10 ((rows.map lbl).dedup).length := by
  have hshape : ∀ (X : List Rec) (f : Rec → Val) (op : Val → Val → Val),
      ((sortValsDesc (groupAgg X f op)).take 10).length =
        min 10 ((X.map lbl).dedup).length := by
    intro X f op
    rw [List.length_take, sortValsDesc_length, groupAgg_length]
  unfold top10 at hout
  by_cases hm : metric = "Unit_Price"
  · rw [if_pos hm, Except.ok.injEq] at hout
    subst hout
    rw [hshape, List.dedup_eq_self.mpr (nodup_lbl_dedupBy rows),
      (dedupBy_labels_perm rows).length_eq]
    exact ⟨Nat.min_le_left _ _, rfl⟩
  · rw [if_neg hm] at hout
    cases hc : column metric with
    | none =>
      rw [hc] at hout
      exact absurd hout (by simp)
    | some f =>
      rw [hc, Except.ok.injEq] at hout
      subst hout
      rw [hshape]
      exact ⟨Nat.min_le_left _ _, rfl⟩

/-- C8 witness: the size identity instantiated on the two-label input. -/
theorem top10_size_bound_witness :
    ([("A", Val.num 5), ("B", Val.num 5)] : List (String × Val)).length ≤ 10 ∧
    ([("A", Val.num 5), ("B", Val.num 5)] : List (String × Val)).length =
      min 10 ((rowsTie.map lbl).dedup).length :=
  top10_size_bound rowsTie "Quantity" _ tie_top10_eval

/-! ### Claim theorems for the label wrapper and the cleanses -/

/-- C3 (counterexample): the input `"aaaaaaaaaa bbbbbbbbbbbbbbbbbbbb"`
(a 10-character word and a 20-character word) is returned by `wrap_text`
as a single line of two words of character length 31 > `max_width` = 30:
the greedy check `len(line) + len(w) <= width` does not count the
separating space, refuting the claim that every multi-word line has
length at most `max_width`. -/
theorem wrap_two_word_line_exceeds_width :
    wrap_text "aaaaaaaaaa bbbbbbbbbbbbbbbbbbbb" 30 = "aaaaaaaaaa bbbbbbbbbbbbbbbbbbbb" ∧
    (splitWs "aaaaaaaaaa bbbbbbbbbbbbbbbbbbbb").length = 2 ∧
    ("aaaaaaaaaa bbbbbbbbbbbbbbbbbbbb" : String).length = 31 :=
  ⟨by decide, by decide, by decide⟩

/-- C3 (amended): every line `wrap_text` returns either has character
length at most `max_width + 1` = 31 (the greedy check omits the one
separating space) or is a single over-long input word kept whole. -/
theorem wrap_line_length_bound (text : String) (l : String)
    (hl : l ∈ (wrapLines text 30).take 2) :
    l.length ≤ 31 ∨ l ∈ splitWs text :=
  wrapAux_bound 30 (splitWs text) (splitWs text) [] ""
    (fun _ hx => hx) (Or.inl (by decide))
    (fun l2 hl2 => absurd hl2 (List.not_mem_nil l2))
    l (List.take_subset 2 _ hl)

/-- C3 witness: the bound instantiated on the concrete wrap of `"a b"`. -/
theorem wrap_line_length_bound_witness :
    ("a b" : String).length ≤ 31 ∨ "a b" ∈ splitWs "a b" :=
  wrap_line_length_bound "a b" "a b" (by decide)

/-- C5 (counterexample): `"a  b"` has length 4 ≤ 30 yet `wrap_text`
returns `"a b"`, a strictly shorter string — the wrapper collapses the
double space, so short strings are not returned unchanged. -/
theorem wrap_short_text_not_identity :
    wrap_text "a  b" 30 = "a b" ∧
    ("a b" : String).length < ("a  b" : String).length ∧
    ("a  b" : String).length ≤ 30 :=
  ⟨by decide, by decide, by decide⟩

/-- C5 (amended): a string of length ≤ `max_width` whose words are already
separated by single spaces with no surrounding whitespace (`text =
wordsJoin (splitWs text)`) is returned unchanged as the sole line. -/
theorem wrap_identity_on_normalized (text : String)
    (h1 : text.length ≤ 30) (h2 : text = wordsJoin (splitWs text)) :
    wrap_text text 30 = text := by
  cases hs : splitWs text with
  | nil =>
    rw [hs] at h2
    unfold wrap_text wrapLines
    rw [hs, h2]
    rfl
  | cons w ws =>
    have hws : ∀ x ∈ splitWs text, 0 < x.length := fun x hx => splitWs_pos text x hx
    have hw : 0 < w.length := hws w (hs ▸ List.mem_cons_self w ws)
    have hlen : (wordsJoin (w :: ws)).length ≤ 30 := by
      rw [← hs, ← h2]
      exact h1
    unfold wrap_text wrapLines
    rw [hs]
    have hcond : ("" : String).length + w.length ≤ 30 := by
      have := head_le_wordsJoin w ws
      have h0 : ("" : String).length = 0 := rfl
      omega
    simp only [wrapAux, if_pos hcond]
    have hrw : (("" : String) ++ (if ("" : String).isEmpty then "" else " ") ++ w) = w := rfl
    rw [hrw,
      wrapAux_fits 30 ws [] w hw (fun x hx => hws x (hs ▸ List.mem_cons_of_mem w hx)) hlen,
      h2, hs]
    rfl

/-- C5 witness: the already-normalized short label `"Pump A"`. -/
theorem wrap_identity_witness : wrap_text "Pump A" 30 = "Pump A" :=
  wrap_identity_on_normalized "Pump A" (by decide) (by decide)

/-- C6: a single word longer than `max_width` = 30 is kept whole: the
wrapped output is `"<br>" ++ w` (an empty first line, then the word,
unsplit, as the second line); and in general every returned line is the
single-space join of a subsequence of the input's words, so no word is
ever split mid-word. -/
theorem wrap_keeps_overlong_word_whole :
    (∀ w : String, 30 < w.length → splitWs w = [w] →
      (wrapLines w 30).take 2 = ["", w] ∧ wrap_text w 30 = "<br>" ++ w) ∧
    (∀ text : String, ∀ l ∈ (wrapLines text 30).take 2,
      ∃ seg, List.Sublist seg (splitWs text) ∧ l = wordsJoin seg) := by
  constructor
  · intro w hlen hsplit
    have hcond : ¬ (("" : String).length + w.length ≤ 30) := by
      have h0 : ("" : String).length = 0 := rfl
      omega
    constructor
    · unfold wrapLines
      rw [hsplit]
      simp only [wrapAux, if_neg hcond]
      rfl
    · unfold wrap_text wrapLines
      rw [hsplit]
      simp only [wrapAux, if_neg hcond]
      rfl
  · intro text l hl
    exact wrapLines_words text 30 l (List.take_subset 2 _ hl)

/-- C6 witness: the 31-character word is returned whole after an empty
first line, and the general no-split property instantiated on `"a b"`. -/
theorem wrap_keeps_overlong_word_whole_witness :
    ((wrapLines "aaaaaaaaaaaaaaaaaaaaaaaaaaaaaaa" 30).take 2 =
        ["", "aaaaaaaaaaaaaaaaaaaaaaaaaaaaaaa"] ∧
      wrap_text "aaaaaaaaaaaaaaaaaaaaaaaaaaaaaaa" 30 =
        "<br>" ++ "aaaaaaaaaaaaaaaaaaaaaaaaaaaaaaa") ∧
    (∃ seg, List.Sublist seg (splitWs "a b") ∧ "a b" = wordsJoin seg) :=
  ⟨wrap_keeps_overlong_word_whole.1 "aaaaaaaaaaaaaaaaaaaaaaaaaaaaaaa"
      (by decide) (by decide),
    wrap_keeps_overlong_word_whole.2 "a b" "a b" (by decide)⟩

/-- C10: every returned line is the single-space join of a subsequence of
the input's (non-empty, whitespace-free) words — so adjacent words are
separated by exactly one space, leading/trailing whitespace is discarded
and runs of whitespace collapse; concretely `"a  b"` wraps to `"a b"` and
`" a \t b "` wraps to `"a b"`. -/
theorem wrap_collapses_whitespace :
    (∀ text : String, ∀ l ∈ wrapLines text 30,
      ∃ seg, List.Sublist seg (splitWs text) ∧
        (∀ w ∈ seg, 0 < w.length ∧ w.toList.all (fun c => !isWsChar c) = true) ∧
        l = wordsJoin seg) ∧
    wrap_text "a  b" 30 = "a b" ∧ wrap_text " a \t b " 30 = "a b" := by
  refine ⟨?_, by decide, by decide⟩
  intro text l hl
  obtain ⟨seg, hsub, heq⟩ := wrapLines_words text 30 l hl
  exact ⟨seg, hsub,
    fun w hw => ⟨splitWs_pos text w (hsub.subset hw), splitWs_nows text w (hsub.subset hw)⟩,
    heq⟩

/-- C7: the numeric cleanse is total and non-negative: every cell value
yields a rational ≥ 0; the sentinel cells (after comma/space stripping)
yield exactly 0; any cell whose cleansed text still fails to parse yields
0; and the normalized quantity and local unit price of every row are ≥ 0. -/
theorem clean_numeric_total :
    (∀ s : String, 0 ≤ clean_numeric s) ∧
    (clean_numeric "NA" = 0 ∧ clean_numeric "-" = 0 ∧ clean_numeric "" = 0 ∧
      clean_numeric "nan" = 0 ∧ clean_numeric "None" = 0 ∧ clean_numeric " N A " = 0) ∧
    (∀ s : String, parseNum (cleanse s) = none → clean_numeric s = 0) ∧
    (∀ r : RawRow, 0 ≤ (loadRow r).Quantity ∧ 0 ≤ (loadRow r).Unit_Price_RWF ∧
      0 ≤ (loadRow r).Unit_Price) := by
  refine ⟨clean_numeric_nonneg,
    ⟨by decide, by decide, by decide, by decide, by decide, by decide⟩,
    ?_, ?_⟩
  · intro s h
    unfold clean_numeric
    rw [h]
  · intro r
    refine ⟨clean_numeric_nonneg _, clean_numeric_nonneg _, ?_⟩
    show 0 ≤ clean_numeric r.Unit_Price_RWF / USD_RATE
    exact div_nonneg (clean_numeric_nonneg _) (by norm_num [USD_RATE])

/-- C9: after the text cleanse no categorical field is empty — every
normalized equipment/department/service value has positive length — and
the scenario values `["", "nan", "Water", "None"]` (pandas renders a
missing cell as `"nan"` and a Python `None` as `"None"`) normalize to
`["Unknown", "Unknown", "Water", "Unknown"]`. -/
theorem normalized_text_nonempty :
    (∀ r : RawRow, 0 < (loadRow r).Equipment.length ∧
      0 < (loadRow r).Department.length ∧ 0 < (loadRow r).Service.length) ∧
    [("" : String), "nan", "Water", "None"].map normText =
      ["Unknown", "Unknown", "Water", "Unknown"] := by
  refine ⟨?_, by decide⟩
  intro r
  exact ⟨normText_pos _, normText_pos _, normText_pos _⟩
